import Mathlib

/-!
Verification of the RAG core (chunker + in-memory vector store) of the
LinkedIn content engine, as implemented in `src/services/geminiService.ts`.

The embedding is shallow:
* JavaScript `number[]` embedding vectors are modelled as `List ℝ`
  (the claims are stated over exact real/rational arithmetic);
* JavaScript strings are modelled as Lean `String`; the two string
  operations used by the chunker — `text.replace(/#/g, '')` and
  `text.split(/\s+/).filter(w => w.length > 0)` — are modelled on the
  character list: removing every `#` character, and splitting into
  maximal runs of non-whitespace characters;
* the external embedding service `generateEmbeddings` (which can throw)
  is a parameter `embed : String → Except String (List ℝ)`;
* `async`/`await` sequencing inside `add_documents` is sequential in the
  source (one embedding call at a time), so the method is modelled as a
  pure state transformer, plus an `Except`-monadic variant that models
  the try/catch/finally exception flow faithfully.
-/

namespace RagCore

/-- `dotProduct` from `geminiService.ts`:
if the two vectors have different lengths it returns 0, otherwise it is
the sum of the componentwise products
(`vecA.map((val, i) => val * vecB[i]).reduce((sum, current) => sum + current, 0)`). -/
def dotProduct (vecA vecB : List ℝ) : ℝ :=
  if vecA.length ≠ vecB.length then 0
  else (List.zipWith (fun a b => a * b) vecA vecB).foldl (fun sum current => sum + current) 0

/-- `magnitude` from `geminiService.ts`:
`Math.sqrt(vec.reduce((sum, val) => sum + val * val, 0))`. -/
noncomputable def magnitude (vec : List ℝ) : ℝ :=
  Real.sqrt (vec.foldl (fun sum val => sum + val * val) 0)

/-- `cosineSimilarity` from `geminiService.ts`: returns 0 when either
magnitude is zero, otherwise `dot / (magA * magB)`. -/
noncomputable def cosineSimilarity (vecA vecB : List ℝ) : ℝ :=
  if magnitude vecA = 0 ∨ magnitude vecB = 0 then 0
  else dotProduct vecA vecB / (magnitude vecA * magnitude vecB)

/-- The tokenization step of `MockVectorStore.chunkText`:
`text.replace(/#/g, '').split(/\s+/).filter(w => w.length > 0)` — strip
all `#` characters, split on whitespace runs, discard empty tokens. -/
def tokenizeWords (text : String) : List String :=
  (((text.data.filter (fun c => c ≠ '#')).splitOnP (fun c => c.isWhitespace)).map String.mk).filter
    (fun w => w.length > 0)

/-- The token window pushed by one iteration of the `chunkText` loop:
`words.slice(i, Math.min(i + maxWords, words.length))`. -/
def windowAt (words : List String) (maxWords i : Nat) : List String :=
  (words.drop i).take (min (i + maxWords) words.length - i)

/-- The `while (i < words.length)` loop of `MockVectorStore.chunkText`.
Each iteration pushes `words.slice(i, Math.min(i + maxWords, words.length)).join(' ')`
(that is, `" ".intercalate (windowAt words maxWords i)`) and advances `i`
by `maxWords - overlapWords`.  `count` is the number of chunks pushed
before the current iteration, so the inner conditional models the
source's `if (i >= words.length && chunks.length > 1) break;` checked
after the push.  The `fuel` argument makes the recursion structural; it
is instantiated with `words.length`, which never runs out when
`overlapWords < maxWords` (the source's documented precondition —
`overlapWords ≥ maxWords` makes the JavaScript loop non-terminating). -/
def chunkLoop (words : List String) (maxWords overlapWords : Nat) : Nat → Nat → Nat → List String
  | 0, _, _ => []
  | fuel + 1, i, count =>
    if i < words.length then
      if i + (maxWords - overlapWords) ≥ words.length ∧ count + 1 > 1 then
        [" ".intercalate (windowAt words maxWords i)]
      else
        " ".intercalate (windowAt words maxWords i) ::
          chunkLoop words maxWords overlapWords fuel (i + (maxWords - overlapWords)) (count + 1)
    else []

/-- `MockVectorStore.chunkText`: short texts (token count ≤ `maxWords`)
are returned whole and unprocessed; longer texts go through the sliding
window loop. -/
def chunkText (text : String) (maxWords : Nat := 100) (overlapWords : Nat := 20) : List String :=
  let words := tokenizeWords text
  if words.length ≤ maxWords then [text]
  else chunkLoop words maxWords overlapWords words.length 0 0

/-- The token windows produced by the `chunkText` loop, before they are
re-joined with spaces.  `chunkLoop` is proved equal to mapping
`" ".intercalate` over this list (`chunkLoop_eq_windows`); in particular
the source's `break` never changes the output, because it fires exactly
when the `while` guard is about to fail anyway. -/
def chunkWindows (words : List String) (maxWords overlapWords : Nat) : Nat → Nat → List (List String)
  | 0, _ => []
  | fuel + 1, i =>
    if i < words.length then
      windowAt words maxWords i ::
        chunkWindows words maxWords overlapWords fuel (i + (maxWords - overlapWords))
    else []

/-- Adjacent windows overlap in exactly `ov` tokens: for every adjacent
pair except the pair ending at the final window, the last `ov` tokens of
the first equal the first `ov` tokens of the second. -/
def consecOverlap (ov : Nat) : List (List String) → Prop
  | a :: b :: c :: rest =>
      (a.drop (a.length - ov) = b.take ov ∧ (a.drop (a.length - ov)).length = ov ∧
        (b.take ov).length = ov) ∧
      consecOverlap ov (b :: c :: rest)
  | _ => True

/-- A concrete document whose stripped token count is 170 (> the default
`maxWords = 100`), used to evaluate the chunker at a concrete input. -/
def sample170 : String := " ".intercalate (List.replicate 170 "a")

/-- A concrete short document (2 tokens). -/
def sampleShort : String := "hello # world"

/-- `VectorStoreEntry` from `geminiService.ts`: one stored chunk with its
embedding. -/
structure VectorStoreEntry where
  text : String
  embedding : List ℝ

/-- The state of `MockVectorStore`: the `documents` array and the
`isProcessing` busy flag (initially `[]` and `false`). -/
structure MockVectorStore where
  documents : List VectorStoreEntry
  isProcessing : Bool

/-- One iteration of the inner `for (const chunk of chunks)` loop of
`MockVectorStore.add_documents`: skip the chunk if an entry with
identical text exists (`documents.some(doc => doc.text === chunk)`);
otherwise call the embedding service and push the new entry, and on an
embedding failure catch the error, log it, and leave the documents
unchanged.  The external `generateEmbeddings` service is the parameter
`embed`; a throw is an `Except.error`. -/
def addChunk (embed : String → Except String (List ℝ)) (docs : List VectorStoreEntry)
    (chunk : String) : List VectorStoreEntry :=
  if docs.any (fun doc => doc.text == chunk) then docs
  else
    match embed chunk with
    | .ok embedding => docs ++ [⟨chunk, embedding⟩]
    | .error _ => docs

/-- One iteration of the outer `for (const text of texts)` loop of
`add_documents`: chunk the text (with the chunker defaults) and process
each chunk in order. -/
def addText (embed : String → Except String (List ℝ)) (docs : List VectorStoreEntry)
    (text : String) : List VectorStoreEntry :=
  (chunkText text).foldl (addChunk embed) docs

/-- `MockVectorStore.add_documents` as a state transformer: if the store
is already processing (`isProcessing`), return immediately without any
change; otherwise set the busy flag, process every text, and finally
clear the flag (the `finally` block), so the resulting flag is `false`. -/
def add_documents (embed : String → Except String (List ℝ)) (store : MockVectorStore)
    (texts : List String) : MockVectorStore :=
  if store.isProcessing then store
  else { documents := texts.foldl (addText embed) store.documents, isProcessing := false }

/-- The chunk-level body of `add_documents` in the `Except` monad,
modelling the exception flow explicitly: the `await generateEmbeddings(chunk)`
call may throw, and the surrounding `try { ... } catch { ... }` swallows
the error and keeps the documents unchanged. -/
def addChunkE (embed : String → Except String (List ℝ)) (docs : List VectorStoreEntry)
    (chunk : String) : Except String (List VectorStoreEntry) :=
  if docs.any (fun doc => doc.text == chunk) then pure docs
  else
    tryCatch
      (do
        let embedding ← embed chunk
        pure (docs ++ [⟨chunk, embedding⟩]))
      (fun _ => pure docs)

/-- `MockVectorStore.add_documents` in the `Except` monad: the whole
double loop runs inside `try { ... } finally { this.isProcessing = false }`,
so if the loop finishes with documents `docs` the result is the store
`⟨docs, false⟩`, and if an exception escaped the loop it would propagate
to the caller (after the `finally` cleared the flag).  It is proved that
the error branch is never taken (`add_documents_error_isolation`). -/
def add_documentsE (embed : String → Except String (List ℝ)) (store : MockVectorStore)
    (texts : List String) : Except String MockVectorStore :=
  if store.isProcessing then pure store
  else
    match texts.foldlM (fun docs text => (chunkText text).foldlM (addChunkE embed) docs)
        store.documents with
    | .ok docs => .ok { documents := docs, isProcessing := false }
    | .error e => .error e

/-- The ranked candidate list built by `MockVectorStore.similarity_search`:
map every entry to `(text, cosineSimilarity queryEmbedding entry.embedding)`,
sort by similarity descending with a stable sort (the JavaScript
comparator `(a, b) => b.similarity - a.similarity`), take the top `k`
(`slice(0, k)`), and keep only the items with similarity strictly above
`0.7`. -/
noncomputable def searchRanked (store : MockVectorStore) (queryEmbedding : List ℝ)
    (k : Nat) : List (String × ℝ) :=
  ((((store.documents.map
        (fun doc => (doc.text, cosineSimilarity queryEmbedding doc.embedding))).mergeSort
      (fun a b => decide (b.2 ≤ a.2))).take k).filter
    (fun item => decide (item.2 > 0.7)))

/-- `MockVectorStore.similarity_search`: empty sequence if the store has
no documents or is busy; otherwise the texts of the ranked, sliced and
thresholded candidates. -/
noncomputable def similarity_search (store : MockVectorStore) (queryEmbedding : List ℝ)
    (k : Nat := 3) : List String :=
  if store.documents.length == 0 || store.isProcessing then []
  else (searchRanked store queryEmbedding k).map (fun item => item.1)

/-- Store states reachable from the freshly constructed store
(`documents = []`, `isProcessing = false`) by any sequence of
`add_documents` calls (with arbitrary embedding services) —
`similarity_search` is read-only and does not change the state, so these
are all states the program can reach. -/
inductive Reachable : MockVectorStore → Prop where
  | empty : Reachable ⟨[], false⟩
  | add (embed : String → Except String (List ℝ)) (texts : List String)
      {s : MockVectorStore} : Reachable s → Reachable (add_documents embed s texts)


theorem any_text_of_mem {docs : List VectorStoreEntry} {c : String}
    (h : c ∈ docs.map (fun e => e.text)) : docs.any (fun doc => doc.text == c) = true := by
  obtain ⟨e, he, het⟩ := List.mem_map.mp h
  exact List.any_eq_true.mpr ⟨e, he, by simp [het]⟩

theorem mem_text_of_any {docs : List VectorStoreEntry} {c : String}
    (h : docs.any (fun doc => doc.text == c) = true) : c ∈ docs.map (fun e => e.text) := by
  obtain ⟨e, he, het⟩ := List.any_eq_true.mp h
  exact List.mem_map.mpr ⟨e, he, by simpa using het⟩

theorem addChunk_extends (embed : String → Except String (List ℝ))
    (docs : List VectorStoreEntry) (chunk : String) : docs <+: addChunk embed docs chunk := by
  rw [addChunk]
  by_cases hdup : docs.any (fun doc => doc.text == chunk) = true
  · rw [if_pos hdup]
  · rw [if_neg hdup]
    cases embed chunk with
    | ok w => exact ⟨[⟨chunk, w⟩], rfl⟩
    | error e => exact List.prefix_refl _

theorem foldl_addChunk_extends (embed : String → Except String (List ℝ)) :
    ∀ (chunks : List String) (docs : List VectorStoreEntry),
      docs <+: chunks.foldl (addChunk embed) docs := by
  intro chunks
  induction chunks with
  | nil => intro docs; exact List.prefix_refl _
  | cons d ds ih =>
    intro docs
    exact (addChunk_extends embed docs d).trans (ih (addChunk embed docs d))

theorem foldl_addChunk_mem_text (embed : String → Except String (List ℝ)) :
    ∀ (chunks : List String) (docs : List VectorStoreEntry),
      (∀ c ∈ chunks, ∃ v, embed c = .ok v) →
      ∀ c ∈ chunks, c ∈ (chunks.foldl (addChunk embed) docs).map (fun e => e.text) := by
  intro chunks
  induction chunks with
  | nil => intro docs _ c hc; simp at hc
  | cons d ds ih =>
    intro docs hok c hc
    have hpref : (addChunk embed docs d).map (fun e => e.text) <+:
        (ds.foldl (addChunk embed) (addChunk embed docs d)).map (fun e => e.text) :=
      (foldl_addChunk_extends embed ds (addChunk embed docs d)).map _
    rcases List.mem_cons.mp hc with rfl | hmem
    · refine hpref.subset ?_
      rw [addChunk]
      by_cases hdup : docs.any (fun doc => doc.text == c) = true
      · rw [if_pos hdup]
        exact mem_text_of_any hdup
      · rw [if_neg hdup]
        obtain ⟨v, hv⟩ := hok c (List.mem_cons_self _ _)
        rw [hv]
        simp
    · exact ih (addChunk embed docs d) (fun x hx => hok x (List.mem_cons_of_mem _ hx)) c hmem

theorem foldl_addChunk_idem (embed : String → Except String (List ℝ)) :
    ∀ (chunks : List String) (docs : List VectorStoreEntry),
      (∀ c ∈ chunks, c ∈ docs.map (fun e => e.text)) →
      chunks.foldl (addChunk embed) docs = docs := by
  intro chunks
  induction chunks with
  | nil => intro docs _; rfl
  | cons d ds ih =>
    intro docs hmem
    have hd : addChunk embed docs d = docs := by
      rw [addChunk, if_pos (any_text_of_mem (hmem d (List.mem_cons_self _ _)))]
    rw [List.foldl_cons, hd, ih docs (fun x hx => hmem x (List.mem_cons_of_mem _ hx))]

/-- Claim C9: with the busy flag down and a deterministic, always
succeeding embedding service, calling `add_documents [t]` twice
sequentially (the first call completing before the second) leaves the
same entry count as calling it once — the second call appends nothing. -/
theorem add_documents_idempotent (embed : String → Except String (List ℝ))
    (s : MockVectorStore) (t : String) (h1 : s.isProcessing = false)
    (h2 : ∀ c, ∃ v, embed c = .ok v) :
    (add_documents embed (add_documents embed s [t]) [t]).documents.length =
      (add_documents embed s [t]).documents.length := by
  have hadd1 : add_documents embed s [t] =
      ⟨(chunkText t).foldl (addChunk embed) s.documents, false⟩ := by
    simp [add_documents, h1, addText]
  have hadd2 : add_documents embed (add_documents embed s [t]) [t] =
      add_documents embed s [t] := by
    rw [hadd1]
    simp only [add_documents, Bool.false_eq_true, if_neg (by simp : ¬False), addText]
    rw [List.foldl_cons, List.foldl_nil, addText,
      foldl_addChunk_idem embed (chunkText t) _
        (foldl_addChunk_mem_text embed (chunkText t) s.documents
          (fun c _ => h2 c))]
  rw [hadd2]

/-- Witness for C9: adding the same one-token document twice to the empty
store with an embedding stub that always succeeds. -/
theorem add_documents_idempotent_witness :
    (add_documents (fun _ => .ok [(1 : ℝ)])
        (add_documents (fun _ => .ok [(1 : ℝ)]) ⟨[], false⟩ ["hello"]) ["hello"]).documents.length =
      (add_documents (fun _ => .ok [(1 : ℝ)]) ⟨[], false⟩ ["hello"]).documents.length :=
  add_documents_idempotent (fun _ => .ok [(1 : ℝ)]) ⟨[], false⟩ "hello" rfl
    (fun _ => ⟨[(1 : ℝ)], rfl⟩)

/-- Claim C4: a second `add_documents` call arriving while the busy flag
is set is a no-op — it appends no entries and leaves the whole store
state (in particular the entry sequence) unchanged; the documents of the
rejected call are dropped, not queued. -/
theorem add_documents_busy_noop (embed : String → Except String (List ℝ))
    (s : MockVectorStore) (texts : List String) (h : s.isProcessing = true) :
    add_documents embed s texts = s ∧ (add_documents embed s texts).documents = s.documents := by
  have hs : add_documents embed s texts = s := by simp [add_documents, h]
  exact ⟨hs, by rw [hs]⟩

/-- Witness for C4 at a concrete busy store. -/
theorem add_documents_busy_noop_witness :
    add_documents (fun _ => .ok [(1 : ℝ)]) ⟨[], true⟩ ["x"] = (⟨[], true⟩ : MockVectorStore) ∧
    (add_documents (fun _ => .ok [(1 : ℝ)]) ⟨[], true⟩ ["x"]).documents = [] :=
  add_documents_busy_noop (fun _ => .ok [(1 : ℝ)]) ⟨[], true⟩ ["x"] rfl

theorem addChunk_nodup {embed : String → Except String (List ℝ)}
    {docs : List VectorStoreEntry} {chunk : String}
    (h : (docs.map (fun e => e.text)).Nodup) :
    ((addChunk embed docs chunk).map (fun e => e.text)).Nodup := by
  rw [addChunk]
  by_cases hdup : docs.any (fun doc => doc.text == chunk) = true
  · rwa [if_pos hdup]
  · rw [if_neg hdup]
    cases embed chunk with
    | ok w =>
      have hchunk : chunk ∉ docs.map (fun e => e.text) := fun hmem => hdup (any_text_of_mem hmem)
      have hmap : (docs ++ [(⟨chunk, w⟩ : VectorStoreEntry)]).map (fun e => e.text) =
          docs.map (fun e => e.text) ++ [chunk] := by simp
      rw [hmap, (List.perm_append_singleton _ _).nodup_iff]
      exact List.nodup_cons.mpr ⟨hchunk, h⟩
    | error e => exact h

theorem foldl_addChunk_nodup {embed : String → Except String (List ℝ)} :
    ∀ (chunks : List String) (docs : List VectorStoreEntry),
      (docs.map (fun e => e.text)).Nodup →
      ((chunks.foldl (addChunk embed) docs).map (fun e => e.text)).Nodup := by
  intro chunks
  induction chunks with
  | nil => intro docs h; exact h
  | cons d ds ih => intro docs h; exact ih (addChunk embed docs d) (addChunk_nodup h)

theorem foldl_addText_nodup {embed : String → Except String (List ℝ)} :
    ∀ (texts : List String) (docs : List VectorStoreEntry),
      (docs.map (fun e => e.text)).Nodup →
      ((texts.foldl (addText embed) docs).map (fun e => e.text)).Nodup := by
  intro texts
  induction texts with
  | nil => intro docs h; exact h
  | cons t ts ih =>
    intro docs h
    exact ih (addText embed docs t) (foldl_addChunk_nodup (chunkText t) docs h)

theorem add_documents_nodup {embed : String → Except String (List ℝ)}
    {s : MockVectorStore} {texts : List String}
    (h : (s.documents.map (fun e => e.text)).Nodup) :
    ((add_documents embed s texts).documents.map (fun e => e.text)).Nodup := by
  rw [add_documents]
  by_cases hb : s.isProcessing = true
  · rwa [if_pos hb]
  · rw [if_neg hb]
    exact foldl_addText_nodup texts s.documents h

/-- Claim C5: in every store state reachable from the empty store by any
sequence of `add_documents` calls (`similarity_search` never mutates the
state), no two entries have identical `text` — every `add_documents`
call preserves the deduplication invariant, including within a single
call whose chunker output repeats chunks, because each chunk is checked
against the documents accumulated so far. -/
theorem dedup_invariant (s : MockVectorStore) (h : Reachable s) :
    (s.documents.map (fun e => e.text)).Nodup := by
  induction h with
  | empty => simp
  | add embed texts hs ih => exact add_documents_nodup ih

/-- Witness for C5: the store after one concrete `add_documents` call on
the empty store is reachable and deduplicated. -/
theorem dedup_invariant_witness :
    ((add_documents (fun _ => .ok [(1 : ℝ)]) ⟨[], false⟩ ["a"]).documents.map
      (fun e => e.text)).Nodup :=
  dedup_invariant _ (Reachable.add (fun _ => .ok [(1 : ℝ)]) ["a"] Reachable.empty)


theorem addChunkE_eq_ok (embed : String → Except String (List ℝ))
    (docs : List VectorStoreEntry) (chunk : String) :
    addChunkE embed docs chunk = .ok (addChunk embed docs chunk) := by
  rw [addChunkE, addChunk]
  by_cases hdup : docs.any (fun doc => doc.text == chunk) = true
  · rw [if_pos hdup, if_pos hdup]
    rfl
  · rw [if_neg hdup, if_neg hdup]
    cases hemb : embed chunk with
    | ok w =>
      simp [hemb, tryCatch, tryCatchThe, MonadExceptOf.tryCatch, Except.tryCatch, Bind.bind,
        Except.bind, pure, Except.pure]
    | error e =>
      simp [hemb, tryCatch, tryCatchThe, MonadExceptOf.tryCatch, Except.tryCatch, Bind.bind,
        Except.bind, pure, Except.pure]

theorem foldlM_addChunkE_eq_ok (embed : String → Except String (List ℝ)) :
    ∀ (chunks : List String) (docs : List VectorStoreEntry),
      chunks.foldlM (addChunkE embed) docs = .ok (chunks.foldl (addChunk embed) docs) := by
  intro chunks
  induction chunks with
  | nil => intro docs; rfl
  | cons d ds ih =>
    intro docs
    rw [List.foldlM_cons, addChunkE_eq_ok]
    simpa [Bind.bind, Except.bind] using ih (addChunk embed docs d)

theorem foldlM_addTextE_eq_ok (embed : String → Except String (List ℝ)) :
    ∀ (texts : List String) (docs : List VectorStoreEntry),
      texts.foldlM (fun docs text => (chunkText text).foldlM (addChunkE embed) docs) docs =
        .ok (texts.foldl (addText embed) docs) := by
  intro texts
  induction texts with
  | nil => intro docs; rfl
  | cons t ts ih =>
    intro docs
    rw [List.foldlM_cons, foldlM_addChunkE_eq_ok]
    simpa [Bind.bind, Except.bind, addText] using ih (addText embed docs t)

theorem add_documentsE_ok (embed : String → Except String (List ℝ))
    (s : MockVectorStore) (texts : List String) :
    add_documentsE embed s texts = .ok (add_documents embed s texts) := by
  rw [add_documentsE, add_documents]
  by_cases hb : s.isProcessing = true
  · rw [if_pos hb, if_pos hb]
    rfl
  · rw [if_neg hb, if_neg hb, foldlM_addTextE_eq_ok]

theorem filter_any_self (docsR : List VectorStoreEntry) (c : String) :
    (docsR.filter (fun e => e.text != c)).any (fun doc => doc.text == c) = false := by
  rw [List.any_eq_false]
  intro e he
  have := (List.mem_filter.mp he).2
  simp only [bne_iff_ne, ne_eq] at this
  simp [this]

theorem filter_any_other (docsR : List VectorStoreEntry) {c d : String} (hdc : d ≠ c) :
    (docsR.filter (fun e => e.text != c)).any (fun doc => doc.text == d) =
      docsR.any (fun doc => doc.text == d) := by
  induction docsR with
  | nil => rfl
  | cons x xs ih =>
    by_cases hx : x.text = c
    · rw [List.filter_cons_of_neg (by simp [hx]), List.any_cons, ih]
      have : (x.text == d) = false := by
        rw [hx]
        exact beq_eq_false_iff_ne.mpr (Ne.symm hdc)
      rw [this, Bool.false_or]
    · rw [List.filter_cons_of_pos (by simp [hx]), List.any_cons, List.any_cons, ih]

theorem addChunk_iso {embed : String → Except String (List ℝ)} {c err : String}
    {v : List ℝ} (hc : embed c = .error err) (d : String) (docsR : List VectorStoreEntry) :
    addChunk embed (docsR.filter (fun e => e.text != c)) d =
      (addChunk (fun x => if x = c then .ok v else embed x) docsR d).filter
        (fun e => e.text != c) := by
  by_cases hdc : d = c
  · subst hdc
    rw [addChunk, addChunk, filter_any_self]
    rw [if_neg (by simp), hc]
    by_cases hdup : docsR.any (fun doc => doc.text == d) = true
    · rw [if_pos hdup]
    · rw [if_neg hdup, if_pos rfl, List.filter_append]
      simp
  · rw [addChunk, addChunk, filter_any_other docsR hdc]
    by_cases hdup : docsR.any (fun doc => doc.text == d) = true
    · rw [if_pos hdup, if_pos hdup]
    · rw [if_neg hdup, if_neg hdup, if_neg hdc]
      cases hemb : embed d with
      | ok w =>
        rw [List.filter_append]
        simp [hdc]
      | error e2 => rfl

theorem foldl_addChunk_iso {embed : String → Except String (List ℝ)} {c err : String}
    {v : List ℝ} (hc : embed c = .error err) :
    ∀ (chunks : List String) (docsR : List VectorStoreEntry),
      chunks.foldl (addChunk embed) (docsR.filter (fun e => e.text != c)) =
        (chunks.foldl (addChunk (fun x => if x = c then .ok v else embed x)) docsR).filter
          (fun e => e.text != c) := by
  intro chunks
  induction chunks with
  | nil => intro docsR; rfl
  | cons d ds ih =>
    intro docsR
    rw [List.foldl_cons, List.foldl_cons, addChunk_iso hc d docsR,
      ih (addChunk (fun x => if x = c then .ok v else embed x) docsR d)]

theorem foldl_addText_iso {embed : String → Except String (List ℝ)} {c err : String}
    {v : List ℝ} (hc : embed c = .error err) :
    ∀ (texts : List String) (docsR : List VectorStoreEntry),
      texts.foldl (addText embed) (docsR.filter (fun e => e.text != c)) =
        (texts.foldl (addText (fun x => if x = c then .ok v else embed x)) docsR).filter
          (fun e => e.text != c) := by
  intro texts
  induction texts with
  | nil => intro docsR; rfl
  | cons t ts ih =>
    intro docsR
    rw [List.foldl_cons, List.foldl_cons, addText, addText,
      foldl_addChunk_iso hc (chunkText t) docsR]
    exact ih (addText (fun x => if x = c then .ok v else embed x) docsR t)

/-- Claim C3: for an `add_documents` call that wins the busy flag, an
embedding failure on one chunk text `c` skips only that chunk: the run
is the same as with a service that succeeds on `c`, minus exactly the
entries with text `c` (every other chunk of the same and of later
documents is still processed and, if not a duplicate, appended).  The
call never raises to its caller (the `Except`-monadic run returns `.ok`),
and the busy flag is false after completion. -/
theorem add_documents_error_isolation (embed : String → Except String (List ℝ))
    (s : MockVectorStore) (texts : List String) (c err : String) (v : List ℝ)
    (h1 : s.isProcessing = false) (h2 : embed c = .error err)
    (h3 : ∀ e ∈ s.documents, e.text ≠ c) :
    add_documentsE embed s texts = .ok (add_documents embed s texts) ∧
    (add_documents embed s texts).isProcessing = false ∧
    (add_documents embed s texts).documents =
      ((add_documents (fun x => if x = c then .ok v else embed x) s texts).documents).filter
        (fun e => e.text != c) := by
  refine ⟨add_documentsE_ok embed s texts, ?_, ?_⟩
  · simp [add_documents, h1]
  · have hstart : s.documents.filter (fun e => e.text != c) = s.documents :=
      List.filter_eq_self.mpr (fun e he => by simpa [bne_iff_ne] using h3 e he)
    simp only [add_documents, h1, Bool.false_eq_true, if_neg (by simp : ¬False)]
    rw [← foldl_addText_iso (v := v) h2 texts s.documents, hstart]

/-- Witness for C3: one document whose single chunk fails to embed on the
real service but succeeds on the override. -/
theorem add_documents_error_isolation_witness :
    add_documentsE (fun x => if x = "bad" then .error "boom" else .ok [(1 : ℝ)])
        ⟨[], false⟩ ["bad"] =
      .ok (add_documents (fun x => if x = "bad" then .error "boom" else .ok [(1 : ℝ)])
        ⟨[], false⟩ ["bad"]) ∧
    (add_documents (fun x => if x = "bad" then .error "boom" else .ok [(1 : ℝ)])
      ⟨[], false⟩ ["bad"]).isProcessing = false ∧
    (add_documents (fun x => if x = "bad" then .error "boom" else .ok [(1 : ℝ)])
        ⟨[], false⟩ ["bad"]).documents =
      ((add_documents
          (fun x => if x = "bad" then .ok [(1 : ℝ)]
            else (fun y => if y = "bad" then .error "boom" else .ok [(1 : ℝ)]) x)
          ⟨[], false⟩ ["bad"]).documents).filter (fun e => e.text != "bad") :=
  add_documents_error_isolation
    (fun x => if x = "bad" then .error "boom" else .ok [(1 : ℝ)])
    ⟨[], false⟩ ["bad"] "bad" "boom" [(1 : ℝ)] rfl (by simp) (by simp)

end RagCore

namespace RagCore

theorem magnitude_nil : magnitude [] = 0 := by
  simp [magnitude]

theorem foldl_add_sq (v : List ℝ) (a : ℝ) :
    v.foldl (fun sum val => sum + val * val) a = a + (v.map (fun x => x * x)).sum := by
  induction v generalizing a with
  | nil => simp
  | cons x xs ih => simp [ih, add_assoc]

theorem sumSq_nonneg (v : List ℝ) : 0 ≤ (v.map (fun x => x * x)).sum := by
  induction v with
  | nil => simp
  | cons x xs ih => simpa using add_nonneg (mul_self_nonneg x) ih

theorem sumSq_pos {v : List ℝ} (h : ∃ x ∈ v, x ≠ 0) : 0 < (v.map (fun x => x * x)).sum := by
  induction v with
  | nil => simp at h
  | cons x xs ih =>
    obtain ⟨y, hy, hy0⟩ := h
    simp only [List.map_cons, List.sum_cons]
    rcases List.mem_cons.mp hy with rfl | hmem
    · exact add_pos_of_pos_of_nonneg (mul_self_pos.mpr hy0) (sumSq_nonneg xs)
    · exact add_pos_of_nonneg_of_pos (mul_self_nonneg x) (ih ⟨y, hmem, hy0⟩)

theorem foldl_add_eq_sum (v : List ℝ) (a : ℝ) :
    v.foldl (fun sum current => sum + current) a = a + v.sum := by
  induction v generalizing a with
  | nil => simp
  | cons x xs ih => simp [ih, add_assoc]

theorem zipWith_mul_self (v : List ℝ) :
    List.zipWith (fun a b => a * b) v v = v.map (fun x => x * x) := by
  induction v with
  | nil => rfl
  | cons x xs ih => simp [ih]

/-- Claim C8: over exact arithmetic, `cosineSimilarity v v = 1` for every
vector with a non-zero component; `cosineSimilarity` returns 0 whenever
either argument has zero magnitude; and it returns 0 whenever the two
arguments have different lengths (the mismatched-length case degrades to
0 instead of raising). -/
theorem cosineSimilarity_props :
    (∀ v : List ℝ, (∃ x ∈ v, x ≠ 0) → cosineSimilarity v v = 1) ∧
    (∀ a b : List ℝ, magnitude a = 0 ∨ magnitude b = 0 → cosineSimilarity a b = 0) ∧
    (∀ a b : List ℝ, a.length ≠ b.length → cosineSimilarity a b = 0) := by
  refine ⟨?_, ?_, ?_⟩
  · intro v hv
    have hS : 0 < (v.map (fun x => x * x)).sum := sumSq_pos hv
    have hmag : magnitude v = Real.sqrt ((v.map (fun x => x * x)).sum) := by
      simp [magnitude, foldl_add_sq]
    have hmagpos : 0 < magnitude v := by
      rw [hmag]; exact Real.sqrt_pos.mpr hS
    have hdot : dotProduct v v = (v.map (fun x => x * x)).sum := by
      simp [dotProduct, zipWith_mul_self, foldl_add_eq_sum]
    rw [cosineSimilarity, if_neg (by push_neg; exact ⟨hmagpos.ne.symm, hmagpos.ne.symm⟩)]
    rw [hdot, hmag, Real.mul_self_sqrt hS.le]
    exact div_self hS.ne.symm
  · intro a b h
    simp [cosineSimilarity, h]
  · intro a b h
    by_cases hz : magnitude a = 0 ∨ magnitude b = 0
    · simp [cosineSimilarity, hz]
    · rw [cosineSimilarity, if_neg hz, dotProduct, if_pos h, zero_div]

/-- Witness for C8 at concrete inputs. -/
theorem cosineSimilarity_props_witness :
    cosineSimilarity [(1 : ℝ)] [(1 : ℝ)] = 1 ∧
    cosineSimilarity ([] : List ℝ) [(1 : ℝ)] = 0 ∧
    cosineSimilarity [(1 : ℝ)] [(1 : ℝ), 0] = 0 :=
  ⟨cosineSimilarity_props.1 [(1 : ℝ)] ⟨1, by simp, one_ne_zero⟩,
   cosineSimilarity_props.2.1 [] [(1 : ℝ)] (Or.inl magnitude_nil),
   cosineSimilarity_props.2.2 [(1 : ℝ)] [(1 : ℝ), 0] (by simp)⟩

theorem chunkWindows_nil {words : List String} {maxW ov i : Nat} (fuel : Nat)
    (h : words.length ≤ i) : chunkWindows words maxW ov fuel i = [] := by
  cases fuel with
  | zero => rfl
  | succ f => simp [chunkWindows, Nat.not_lt.mpr h]

theorem chunkLoop_eq_windows (words : List String) (maxW ov : Nat) :
    ∀ fuel i count, chunkLoop words maxW ov fuel i count =
      (chunkWindows words maxW ov fuel i).map (fun w => " ".intercalate w) := by
  intro fuel
  induction fuel with
  | zero => intro i count; rfl
  | succ f ih =>
    intro i count
    by_cases hi : i < words.length
    · by_cases hbr : i + (maxW - ov) ≥ words.length ∧ count + 1 > 1
      · rw [chunkLoop, chunkWindows, if_pos hi, if_pos hi, if_pos hbr,
          chunkWindows_nil f hbr.1]
        rfl
      · rw [chunkLoop, chunkWindows, if_pos hi, if_pos hi, if_neg hbr, List.map_cons, ih]
    · rw [chunkLoop, chunkWindows, if_neg hi, if_neg hi]
      rfl

theorem chunkWindows_cons_inv {words : List String} {maxW ov fuel i : Nat}
    {w : List String} {rest : List (List String)}
    (h : chunkWindows words maxW ov fuel i = w :: rest) :
    i < words.length ∧ w = windowAt words maxW i ∧
      rest = chunkWindows words maxW ov (fuel - 1) (i + (maxW - ov)) := by
  cases fuel with
  | zero => exact absurd h (by simp [chunkWindows])
  | succ f =>
    by_cases hi : i < words.length
    · rw [chunkWindows, if_pos hi] at h
      exact ⟨hi, (List.cons.injEq _ _ _ _ ▸ h).1.symm, (List.cons.injEq _ _ _ _ ▸ h).2.symm⟩
    · rw [chunkWindows, if_neg hi] at h
      exact absurd h (by simp)

theorem windowAt_length_le (words : List String) (maxW i : Nat) :
    (windowAt words maxW i).length ≤ maxW := by
  rw [windowAt]
  refine le_trans (List.length_take_le _ _) ?_
  omega

theorem chunkWindows_length_le {words : List String} {maxW ov : Nat} :
    ∀ fuel i, ∀ w ∈ chunkWindows words maxW ov fuel i, w.length ≤ maxW := by
  intro fuel
  induction fuel with
  | zero => intro i w hw; simp [chunkWindows] at hw
  | succ f ih =>
    intro i w hw
    by_cases hi : i < words.length
    · rw [chunkWindows, if_pos hi] at hw
      rcases List.mem_cons.mp hw with rfl | hmem
      · exact windowAt_length_le words maxW i
      · exact ih _ w hmem
    · rw [chunkWindows, if_neg hi] at hw
      simp at hw

theorem windowAt_full {words : List String} {maxW i : Nat}
    (h : i + maxW ≤ words.length) :
    windowAt words maxW i = (words.drop i).take maxW ∧ (windowAt words maxW i).length = maxW := by
  have hmin : min (i + maxW) words.length = i + maxW := min_eq_left h
  constructor
  · rw [windowAt, hmin, Nat.add_sub_cancel_left]
  · rw [windowAt, hmin, Nat.add_sub_cancel_left, List.length_take, List.length_drop]
    omega

theorem window_overlap {words : List String} {maxW ov i : Nat}
    (h1 : ov < maxW) (h2 : maxW ≤ 2 * (maxW - ov))
    (hlen : i + 2 * (maxW - ov) < words.length) :
    (windowAt words maxW i).drop ((windowAt words maxW i).length - ov) =
        (windowAt words maxW (i + (maxW - ov))).take ov ∧
      ((windowAt words maxW i).drop ((windowAt words maxW i).length - ov)).length = ov ∧
      ((windowAt words maxW (i + (maxW - ov))).take ov).length = ov := by
  have hfull : i + maxW ≤ words.length := by omega
  obtain ⟨ha, halen⟩ := windowAt_full hfull
  have hb : windowAt words maxW (i + (maxW - ov)) =
      (words.drop (i + (maxW - ov))).take
        (min (i + (maxW - ov) + maxW) words.length - (i + (maxW - ov))) := rfl
  have hbt : ov ≤ min (i + (maxW - ov) + maxW) words.length - (i + (maxW - ov)) := by omega
  have hdropa : (windowAt words maxW i).drop ((windowAt words maxW i).length - ov) =
      (words.drop (i + (maxW - ov))).take ov := by
    rw [halen, ha, List.drop_take, List.drop_drop]
    congr 1
    omega
  have htakeb : (windowAt words maxW (i + (maxW - ov))).take ov =
      (words.drop (i + (maxW - ov))).take ov := by
    rw [hb, List.take_take, min_eq_left hbt]
  refine ⟨by rw [hdropa, htakeb], ?_, ?_⟩
  · rw [hdropa, List.length_take, List.length_drop]
    omega
  · rw [htakeb, List.length_take, List.length_drop]
    omega

theorem chunkWindows_overlap {words : List String} {maxW ov : Nat}
    (h1 : ov < maxW) (h2 : maxW ≤ 2 * (maxW - ov)) :
    ∀ fuel i, consecOverlap ov (chunkWindows words maxW ov fuel i) := by
  intro fuel
  induction fuel with
  | zero => intro i; simp [chunkWindows, consecOverlap]
  | succ f ih =>
    intro i
    by_cases hi : i < words.length
    · rw [chunkWindows, if_pos hi]
      cases htl : chunkWindows words maxW ov f (i + (maxW - ov)) with
      | nil => simp [consecOverlap]
      | cons b rest =>
        cases rest with
        | nil => simp [consecOverlap]
        | cons c rest2 =>
          obtain ⟨hb1, hb2, hb3⟩ := chunkWindows_cons_inv htl
          obtain ⟨hc1, _, _⟩ := chunkWindows_cons_inv hb3.symm
          have hlen : i + 2 * (maxW - ov) < words.length := by omega
          rw [consecOverlap]
          refine ⟨?_, htl ▸ ih (i + (maxW - ov))⟩
          rw [hb2]
          exact window_overlap h1 h2 hlen
    · rw [chunkWindows, if_neg hi]
      simp [consecOverlap]

theorem windowAt_mem_chunkWindows {words : List String} {maxW ov : Nat} :
    ∀ k fuel i, i + (maxW - ov) * k < words.length → k < fuel →
      windowAt words maxW (i + (maxW - ov) * k) ∈ chunkWindows words maxW ov fuel i := by
  intro k
  induction k with
  | zero =>
    intro fuel i hlen hk
    cases fuel with
    | zero => omega
    | succ f =>
      have hi : i < words.length := by omega
      rw [chunkWindows, if_pos hi]
      simp
  | succ k ih =>
    intro fuel i hlen hk
    cases fuel with
    | zero => omega
    | succ f =>
      have hi : i < words.length := by
        have : i ≤ i + (maxW - ov) * (k + 1) := Nat.le_add_right _ _
        omega
      rw [chunkWindows, if_pos hi]
      refine List.mem_cons_of_mem _ ?_
      have harith : i + (maxW - ov) + (maxW - ov) * k = i + (maxW - ov) * (k + 1) := by ring
      rw [← harith] at hlen ⊢
      exact ih f (i + (maxW - ov)) hlen (by omega)

/-- Claim C6: if the stripped token count of the input is at most
`maxWords`, `chunkText` returns exactly the one-element list containing
the original, unprocessed input text (with `#` characters and original
whitespace preserved, since the returned element is the input itself). -/
theorem chunkText_short (text : String) (maxW ov : Nat)
    (h : (tokenizeWords text).length ≤ maxW) :
    chunkText text maxW ov = [text] := by
  simp [chunkText, h]

set_option maxRecDepth 1000000 in
/-- Witness for C6 at a concrete 2-token input containing a `#` and
double whitespace, both preserved in the output. -/
theorem chunkText_short_witness : chunkText sampleShort 100 20 = [sampleShort] :=
  chunkText_short sampleShort 100 20 (by decide)

set_option maxRecDepth 1000000 in
/-- Claim C1 (evaluation at the failing input): on a 170-token input with
the default parameters, the window starting at 80 already ends at the
token count (`min (80 + 100) 170 = 170`), yet `chunkText` does not stop
there: it emits a further 10-token trailing chunk (tokens 160..169).
The source's `break` (`if (i >= words.length && chunks.length > 1) break;`)
fires only when the `while` guard is about to fail anyway, so it never
prevents this trailing chunk, contradicting its own comment
`// prevent final small/overlapping chunk`. -/
theorem chunkText_trailing_eval :
    (tokenizeWords sample170).length = 170 ∧
    chunkText sample170 100 20 =
      [" ".intercalate (List.replicate 100 "a"),
       " ".intercalate (List.replicate 90 "a"),
       " ".intercalate (List.replicate 10 "a")] ∧
    min (80 + 100) 170 = 170 := by
  refine ⟨by decide, by decide, by decide⟩

/-- Claim C7: for inputs with more than 100 stripped tokens (defaults
`maxWords = 100`, `overlapWords = 20`), `chunkText` is the space-joining
of the token windows, every window holds at most 100 tokens, and every
adjacent pair of windows — except possibly the pair ending at the final
window — shares exactly the last/first 20 tokens. -/
theorem chunkText_overlap (text : String) (h : 100 < (tokenizeWords text).length) :
    chunkText text 100 20 =
      (chunkWindows (tokenizeWords text) 100 20 (tokenizeWords text).length 0).map
        (fun w => " ".intercalate w) ∧
    (∀ w ∈ chunkWindows (tokenizeWords text) 100 20 (tokenizeWords text).length 0,
      w.length ≤ 100) ∧
    consecOverlap 20 (chunkWindows (tokenizeWords text) 100 20 (tokenizeWords text).length 0) := by
  refine ⟨?_, ?_, ?_⟩
  · simp only [chunkText]
    rw [if_neg (by omega), chunkLoop_eq_windows]
  · exact chunkWindows_length_le _ _
  · exact chunkWindows_overlap (by omega) (by omega) _ _

set_option maxRecDepth 1000000 in
/-- Witness for C7 at the concrete 170-token input. -/
theorem chunkText_overlap_witness :
    chunkText sample170 100 20 =
      (chunkWindows (tokenizeWords sample170) 100 20 (tokenizeWords sample170).length 0).map
        (fun w => " ".intercalate w) ∧
    consecOverlap 20
      (chunkWindows (tokenizeWords sample170) 100 20 (tokenizeWords sample170).length 0) :=
  ⟨(chunkText_overlap sample170 (by decide)).1, (chunkText_overlap sample170 (by decide)).2.2⟩

/-- Claim C10: for inputs with more than 100 stripped tokens (defaults),
the emitted windows jointly cover every token index: for each index `j`
below the token count there is a window start `i ≤ j` whose window
reaches past `j`, and the space-joining of that window is one of the
chunks returned by `chunkText` — the chunker never loses text. -/
theorem chunkText_coverage (text : String) (h : 100 < (tokenizeWords text).length) :
    ∀ j < (tokenizeWords text).length,
      ∃ i, i ≤ j ∧ j < min (i + 100) (tokenizeWords text).length ∧
        " ".intercalate (windowAt (tokenizeWords text) 100 i) ∈ chunkText text 100 20 := by
  intro j hj
  refine ⟨80 * (j / 80), by omega, by omega, ?_⟩
  rw [(chunkText_overlap text h).1]
  refine List.mem_map_of_mem _ ?_
  have h0 : (0 : Nat) + (100 - 20) * (j / 80) = 80 * (j / 80) := by omega
  rw [← h0]
  exact windowAt_mem_chunkWindows (j / 80) (tokenizeWords text).length 0 (by omega) (by omega)

set_option maxRecDepth 1000000 in
/-- Witness for C10 at the concrete 170-token input, token index 0. -/
theorem chunkText_coverage_witness :
    ∃ i, i ≤ 0 ∧ 0 < min (i + 100) (tokenizeWords sample170).length ∧
      " ".intercalate (windowAt (tokenizeWords sample170) 100 i) ∈ chunkText sample170 100 20 :=
  chunkText_coverage sample170 (by decide) 0 (by decide)


theorem searchRanked_length_le (s : MockVectorStore) (q : List ℝ) (k : Nat) :
    (searchRanked s q k).length ≤ k := by
  rw [searchRanked]
  exact le_trans (List.length_filter_le _ _) (List.length_take_le _ _)

theorem searchRanked_pairwise (s : MockVectorStore) (q : List ℝ) (k : Nat) :
    List.Pairwise (fun a b => b.2 ≤ a.2) (searchRanked s q k) := by
  have hsorted :
      List.Pairwise (fun a b : String × ℝ => (fun a b => decide (b.2 ≤ a.2)) a b = true)
        ((s.documents.map
            (fun doc => (doc.text, cosineSimilarity q doc.embedding))).mergeSort
          (fun a b => decide (b.2 ≤ a.2))) := by
    refine List.sorted_mergeSort ?_ ?_ _
    · intro a b c hab hbc
      exact decide_eq_true (le_trans (of_decide_eq_true hbc) (of_decide_eq_true hab))
    · intro a b
      simp [le_total]
  have hpair := hsorted.imp (fun h => of_decide_eq_true h)
  exact (hpair.sublist (List.take_sublist _ _)).filter _

theorem searchRanked_mem (s : MockVectorStore) (q : List ℝ) (k : Nat) :
    ∀ item ∈ searchRanked s q k,
      (∃ doc ∈ s.documents, doc.text = item.1 ∧ cosineSimilarity q doc.embedding = item.2) ∧
        item.2 > 0.7 := by
  intro item hitem
  rw [searchRanked] at hitem
  obtain ⟨htake, hp⟩ := List.mem_filter.mp hitem
  refine ⟨?_, of_decide_eq_true hp⟩
  have hsort := List.mem_of_mem_take htake
  have hmemmap := ((List.mergeSort_perm _ _).mem_iff).mp hsort
  obtain ⟨doc, hdoc, heq⟩ := List.mem_map.mp hmemmap
  exact ⟨doc, hdoc, by rw [← heq], by rw [← heq]⟩

/-- Claim C2: `similarity_search` returns the empty sequence when the
store has no entries or the busy flag is set; otherwise it returns the
texts of the ranked candidates — never more than `k` of them, each
coming from a stored entry whose cosine similarity to the query is
strictly above `0.7`, ordered by similarity descending (the ranked list
is pairwise similarity-nonincreasing, and the result is its text
projection). -/
theorem similarity_search_spec (s : MockVectorStore) (q : List ℝ) (k : Nat) :
    ((s.documents = [] ∨ s.isProcessing = true) → similarity_search s q k = []) ∧
    (similarity_search s q k).length ≤ k ∧
    (∀ t ∈ similarity_search s q k,
      ∃ doc ∈ s.documents, doc.text = t ∧ cosineSimilarity q doc.embedding > 0.7) ∧
    List.Pairwise (fun a b => b.2 ≤ a.2) (searchRanked s q k) ∧
    (s.documents ≠ [] → s.isProcessing = false →
      similarity_search s q k = (searchRanked s q k).map (fun item => item.1)) := by
  refine ⟨?_, ?_, ?_, searchRanked_pairwise s q k, ?_⟩
  · rintro (h | h) <;> simp [similarity_search, h]
  · cases hg : (s.documents.length == 0 || s.isProcessing) with
    | true => simp [similarity_search, hg]
    | false =>
      rw [similarity_search, hg]
      simpa using searchRanked_length_le s q k
  · intro t ht
    cases hg : (s.documents.length == 0 || s.isProcessing) with
    | true => rw [similarity_search, hg] at ht; simp at ht
    | false =>
      rw [similarity_search, hg] at ht
      simp only [Bool.false_eq_true, if_neg (by simp : ¬False)] at ht
      obtain ⟨item, hitem, hfst⟩ := List.mem_map.mp ht
      obtain ⟨⟨doc, hdoc, htext, hsim⟩, hgt⟩ := searchRanked_mem s q k item hitem
      exact ⟨doc, hdoc, by rw [htext, hfst], by rw [hsim]; exact hgt⟩
  · intro h1 h2
    have hg : (s.documents.length == 0 || s.isProcessing) = false := by
      simp [h2, List.length_eq_zero, h1]
    rw [similarity_search, hg]
    simp

/-- Witness for C2: the empty, idle store returns no results for any
query. -/
theorem similarity_search_spec_witness :
    similarity_search ⟨[], false⟩ [] 3 = [] ∧
    (similarity_search ⟨[], false⟩ [] 3).length ≤ 3 :=
  ⟨(similarity_search_spec ⟨[], false⟩ [] 3).1 (Or.inl rfl),
   (similarity_search_spec ⟨[], false⟩ [] 3).2.1⟩

end RagCore
